import Mathlib

/-!
Verification of the run-history recorder in src/training_history.py.

The module appends one JSON object per line to a history file, reads it back
tolerantly (skipping malformed lines), audits/repairs the file by salvaging
JSON objects from noisy lines, filters records by hyperparameter value, and
optionally auto-exports to CSV every N appended runs.

Everything stateful is modelled by explicit state passing over a `LogState`
containing the history file's lines, the auto-export settings and the export
targets.  The wire format (Python's json.dumps / json.loads with the default
separators and ensure_ascii turned off) is modelled by an executable printer
and an executable fuel-based parser over character lists.

Scope of the json.loads model: the grammar emitted by json.dumps, with
whitespace tolerated between tokens.  Unmodelled corners of the Python
parser: \uXXXX string escapes (and the rare \b \f \/ escapes), exponent
notation in numbers, the non-standard literals NaN and Infinity, and the
rejection of leading zeros in integer literals.  None of these forms is
produced by json.dumps for the values modelled here, and none appears in the
concrete inputs used below.  Python floats are modelled as exact decimal
literals (sign, integer part, fraction digits), faithful to repr on the
short literals that occur in this development.
-/

/-- Whitespace as recognised by Python's str.strip: space, tab, newline,
carriage return, \x0b and \x0c.  The JSON inter-token whitespace of
json.loads is the subset space, tab, newline, carriage return; the parser
below reuses this predicate, which only widens acceptance on the two
vertical-spacing characters that never occur in lines the module writes or
in the concrete inputs used here. -/
def wsChar (c : Char) : Bool :=
  c = ' ' || c = '\t' || c = '\n' || c = '\r' || c = Char.ofNat 11 || c = Char.ofNat 12

/-- Drop leading whitespace characters. -/
def skipWs : List Char → List Char
  | [] => []
  | c :: t => if wsChar c then skipWs t else c :: t

/-- Model of Python's str.strip(): remove leading and trailing whitespace. -/
def pyStrip (s : String) : String :=
  String.mk ((skipWs ((skipWs s.data.reverse).reverse)))

/-- Decimal digit character for d < 10. -/
def digitChar (d : Nat) : Char := Char.ofNat (48 + d)

/-- Numeric value of a decimal digit character. -/
def dval (c : Char) : Nat := c.toNat - 48

/-- Decimal digits of a natural number, most significant first, with
explicit fuel (any fuel above the number suffices; structural recursion
keeps the definition computable by the kernel). -/
def natDigitsF : Nat → Nat → List Char
  | 0, _ => []
  | f + 1, n =>
      if n < 10 then [digitChar n]
      else natDigitsF f (n / 10) ++ [digitChar (n % 10)]

/-- Decimal rendering of a natural number, most significant digit first, as
Python's str(n) produces. -/
def natDigits (n : Nat) : List Char := natDigitsF (n + 1) n

/-- JSON values as they occur in the history log after decoding.  Python
floats are represented by their decimal literal: a sign, an integer part and
a non-empty list of fraction digits (repr of a float always shows a decimal
point). -/
inductive J where
  | jnull : J
  | jbool (b : Bool) : J
  | jint (n : Int) : J
  | jnum (neg : Bool) (ip : Nat) (frac : List Nat) : J
  | jstr (s : String) : J
  | jarr (xs : List J) : J
  | jobj (kvs : List (String × J)) : J

/-- Escape a string body the way json.dumps (ensure_ascii=False) does for
the characters that occur in this development: backslash, double quote,
newline, tab, carriage return; every other character is emitted verbatim. -/
def escapeChars : List Char → List Char
  | [] => []
  | c :: t =>
      if c = '\\' then '\\' :: '\\' :: escapeChars t
      else if c = '"' then '\\' :: '"' :: escapeChars t
      else if c = '\n' then '\\' :: 'n' :: escapeChars t
      else if c = '\t' then '\\' :: 't' :: escapeChars t
      else if c = '\r' then '\\' :: 'r' :: escapeChars t
      else c :: escapeChars t

/-- Rendering of a quoted JSON string. -/
def dumpsStr (s : String) : List Char :=
  '"' :: escapeChars s.data ++ ['"']

/-- Rendering of an integer, as Python's str / json.dumps produce. -/
def dumpsInt (n : Int) : List Char :=
  if n < 0 then '-' :: natDigits n.natAbs else natDigits n.natAbs

/-- Rendering of a float literal: sign, integer part, dot, fraction
digits. -/
def dumpsNum (neg : Bool) (ip : Nat) (frac : List Nat) : List Char :=
  (if neg then ['-'] else []) ++ natDigits ip ++ '.' :: frac.map digitChar

mutual

/-- Model of json.dumps with the default separators (", " between items,
": " after keys) and ensure_ascii=False, as used by the module. -/
def dumpsV : J → List Char
  | .jnull => ['n', 'u', 'l', 'l']
  | .jbool true => ['t', 'r', 'u', 'e']
  | .jbool false => ['f', 'a', 'l', 's', 'e']
  | .jint n => dumpsInt n
  | .jnum neg ip frac => dumpsNum neg ip frac
  | .jstr s => dumpsStr s
  | .jarr xs => '[' :: dumpsL xs ++ [']']
  | .jobj kvs => '{' :: dumpsM kvs ++ ['}']

/-- Rendering of array elements, comma-space separated. -/
def dumpsL : List J → List Char
  | [] => []
  | [x] => dumpsV x
  | x :: y :: t => dumpsV x ++ ',' :: ' ' :: dumpsL (y :: t)

/-- Rendering of object members, comma-space separated, colon-space after
each quoted key. -/
def dumpsM : List (String × J) → List Char
  | [] => []
  | [(k, v)] => dumpsStr k ++ ':' :: ' ' :: dumpsV v
  | (k, v) :: m :: t => dumpsStr k ++ ':' :: ' ' :: dumpsV v ++ ',' :: ' ' :: dumpsM (m :: t)

end

/-- Take the longest prefix of decimal digits. -/
def takeDigits : List Char → List Char × List Char
  | [] => ([], [])
  | c :: t =>
      if c.isDigit then
        let r := takeDigits t
        (c :: r.1, r.2)
      else ([], c :: t)

/-- Value of a digit string read most-significant first. -/
def valDigits (ds : List Char) : Nat :=
  ds.foldl (fun a c => 10 * a + dval c) 0

/-- Parse the body of a JSON string after the opening quote, undoing the
escapes produced by escapeChars; rejects raw control characters (Python's
strict mode) and unknown escapes. -/
def parseStrBody : List Char → Option (List Char × List Char)
  | [] => none
  | c :: t =>
      if c = '"' then some ([], t)
      else if c = '\\' then
        match t with
        | [] => none
        | e :: t2 =>
            let dec : Option Char :=
              if e = '\\' then some '\\'
              else if e = '"' then some '"'
              else if e = 'n' then some '\n'
              else if e = 't' then some '\t'
              else if e = 'r' then some '\r'
              else none
            match dec with
            | none => none
            | some d =>
                match parseStrBody t2 with
                | none => none
                | some (body, rest) => some (d :: body, rest)
      else if c.toNat < 32 then none
      else
        match parseStrBody t with
        | none => none
        | some (body, rest) => some (c :: body, rest)

/-- Parse an unsigned number (integer part already known to start with a
digit): digits, optionally a dot followed by at least one digit.  Returns
the integer part, and the fraction digits when a dot was consumed. -/
def parseNumAfterSign (cs : List Char) : Option ((Nat × Option (List Nat)) × List Char) :=
  let p := takeDigits cs
  if p.1 = [] then none
  else
    match p.2 with
    | [] => some ((valDigits p.1, none), [])
    | c :: r2 =>
        if c = '.' then
          let q := takeDigits r2
          if q.1 = [] then none
          else some ((valDigits p.1, some (q.1.map dval)), q.2)
        else some ((valDigits p.1, none), c :: r2)

/-- Parse the characters of a JSON literal keyword (the tail of null, true
or false after its first character). -/
def parseKeyword (kw : List Char) (cs : List Char) : Option (List Char) :=
  match kw, cs with
  | [], r => some r
  | k :: kt, c :: ct => if c = k then parseKeyword kt ct else none
  | _ :: _, [] => none

mutual

/-- Fuel-based model of json.loads on a character list: parse one JSON
value, returning it with the unconsumed remainder.  Leading whitespace is
skipped.  Fuel is spent once per composite parsing step; the completeness
lemmas below show input length plus one is always enough fuel. -/
def parseVal : Nat → List Char → Option (J × List Char)
  | 0, _ => none
  | fuel + 1, cs =>
      match skipWs cs with
      | [] => none
      | c :: r =>
          if c = '-' then
            match parseNumAfterSign r with
            | none => none
            | some ((ip, none), rest) => some (.jint (-(ip : Int)), rest)
            | some ((ip, some fs), rest) => some (.jnum true ip fs, rest)
          else if c.isDigit then
            match parseNumAfterSign (c :: r) with
            | none => none
            | some ((ip, none), rest) => some (.jint (ip : Int), rest)
            | some ((ip, some fs), rest) => some (.jnum false ip fs, rest)
          else if c = '"' then
            match parseStrBody r with
            | none => none
            | some (body, rest) => some (.jstr (String.mk body), rest)
          else if c = '[' then
            match skipWs r with
            | ']' :: r2 => some (.jarr [], r2)
            | r1 =>
                match parseElems1 fuel r1 with
                | none => none
                | some (xs, rest) => some (.jarr xs, rest)
          else if c = '{' then
            match skipWs r with
            | '}' :: r2 => some (.jobj [], r2)
            | r1 =>
                match parseMembers1 fuel r1 with
                | none => none
                | some (kvs, rest) => some (.jobj kvs, rest)
          else if c = 'n' then
            match parseKeyword ['u', 'l', 'l'] r with
            | some rest => some (.jnull, rest)
            | none => none
          else if c = 't' then
            match parseKeyword ['r', 'u', 'e'] r with
            | some rest => some (.jbool true, rest)
            | none => none
          else if c = 'f' then
            match parseKeyword ['a', 'l', 's', 'e'] r with
            | some rest => some (.jbool false, rest)
            | none => none
          else none

/-- Parse a non-empty comma-separated element list followed by a closing
bracket. -/
def parseElems1 : Nat → List Char → Option (List J × List Char)
  | 0, _ => none
  | fuel + 1, cs =>
      match parseVal fuel cs with
      | none => none
      | some (v, r) =>
          match skipWs r with
          | ']' :: r2 => some ([v], r2)
          | ',' :: r2 =>
              match parseElems1 fuel r2 with
              | none => none
              | some (xs, rest) => some (v :: xs, rest)
          | _ => none

/-- Parse a non-empty comma-separated member list followed by a closing
brace.  Keys are quoted strings. -/
def parseMembers1 : Nat → List Char → Option (List (String × J) × List Char)
  | 0, _ => none
  | fuel + 1, cs =>
      match skipWs cs with
      | '"' :: r =>
          match parseStrBody r with
          | none => none
          | some (key, r1) =>
              match skipWs r1 with
              | ':' :: r2 =>
                  match parseVal fuel r2 with
                  | none => none
                  | some (v, r3) =>
                      match skipWs r3 with
                      | '}' :: r4 => some ([(String.mk key, v)], r4)
                      | ',' :: r4 =>
                          match parseMembers1 fuel r4 with
                          | none => none
                          | some (kvs, rest) => some ((String.mk key, v) :: kvs, rest)
                      | _ => none
              | _ => none
      | _ => none

end

/-- Model of json.loads on a character list: parse one value with ample
fuel and require only whitespace to remain. -/
def jsonLoadsChars (cs : List Char) : Option J :=
  match parseVal (cs.length + 1) cs with
  | none => none
  | some (v, rest) => if skipWs rest = [] then some v else none

/-- Model of json.loads on a string. -/
def json_loads (s : String) : Option J :=
  jsonLoadsChars s.data

/-- Characters a modelled string value may contain: printable characters,
or the control characters our escaper handles.  Other control characters
would be emitted raw (json.dumps would use a \uXXXX escape) and are outside
the modelled fragment. -/
def wfChar (c : Char) : Bool :=
  32 ≤ c.toNat || c = '\n' || c = '\t' || c = '\r'

/-- Well-formed string payload. -/
def wfStr (s : String) : Bool :=
  s.data.all wfChar

mutual

/-- Well-formed JSON values: string payloads stay inside the modelled
character set, and float literals carry at least one fraction digit with
every digit below ten.  Exactly the values representable by the modelled
wire format. -/
def wfV : J → Bool
  | .jnull => true
  | .jbool _ => true
  | .jint _ => true
  | .jnum _ _ frac => !frac.isEmpty && frac.all (fun d => d < 10)
  | .jstr s => wfStr s
  | .jarr xs => wfL xs
  | .jobj kvs => wfM kvs

/-- Well-formedness for element lists. -/
def wfL : List J → Bool
  | [] => true
  | x :: t => wfV x && wfL t

/-- Well-formedness for member lists. -/
def wfM : List (String × J) → Bool
  | [] => true
  | (k, v) :: t => wfStr k && wfV v && wfM t

end

mutual

/-- Fuel needed by parseVal to parse the rendering of a value. -/
def Wv : J → Nat
  | .jarr xs => 1 + Wl xs
  | .jobj kvs => 1 + Wm kvs
  | _ => 1

/-- Fuel needed by parseElems1 to parse a rendered element list. -/
def Wl : List J → Nat
  | [] => 1
  | [x] => 1 + Wv x
  | x :: y :: t => 1 + Wv x + Wl (y :: t)

/-- Fuel needed by parseMembers1 to parse a rendered member list. -/
def Wm : List (String × J) → Nat
  | [] => 1
  | [(_, v)] => 1 + Wv v
  | (_, v) :: m :: t => 1 + Wv v + Wm (m :: t)

end

/-- All characters are whitespace. -/
def allWs (s : List Char) : Bool := s.all wsChar

/-- The list does not begin with a digit (boundary after a number's
fraction digits). -/
def nonDigitStart : List Char → Bool
  | [] => true
  | c :: _ => !c.isDigit

/-- The list does not begin with a digit or a dot (boundary after an
integer literal). -/
def nonDigitDotStart : List Char → Bool
  | [] => true
  | c :: _ => !c.isDigit && !(c = '.')

/-!
Python values before encoding.  A value is a dict, a list, or a leaf; the
source's _safe_map recurses only into dicts and lists, so every other
Python object is a leaf here.  A leaf either serializes (carrying its JSON
image, e.g. strings, numbers, booleans, None, and also tuples, which
json.dumps renders as arrays) or makes json.dumps raise, in which case only
its display string str(o) is ever observable.  Dict keys are modelled as
strings, per the data model (mapping of name to value).
-/
inductive PyVal where
  | pdict (kvs : List (String × PyVal))
  | plist (xs : List PyVal)
  | pjson (v : J)
  | pbad (display : String)

mutual

/-- Model of the source's _safe_map (src/training_history.py lines 53-58):
recurse into dicts and lists; on any other value apply _safe (lines 44-50),
which returns the value unchanged when json.dumps succeeds and its display
string when json.dumps raises. -/
def _safe_map : PyVal → PyVal
  | .pdict kvs => .pdict (safeMapM kvs)
  | .plist xs => .plist (safeMapL xs)
  | .pjson v => .pjson v
  | .pbad s => .pjson (.jstr s)

/-- Value-wise _safe_map over list elements. -/
def safeMapL : List PyVal → List PyVal
  | [] => []
  | x :: t => _safe_map x :: safeMapL t

/-- Value-wise _safe_map over dict entries (keys preserved). -/
def safeMapM : List (String × PyVal) → List (String × PyVal)
  | [] => []
  | (k, v) :: t => (k, _safe_map v) :: safeMapM t

end

mutual

/-- Whether json.dumps succeeds on a Python value: it fails exactly when a
non-serializable leaf occurs anywhere in the structure. -/
def serializablePy : PyVal → Bool
  | .pdict kvs => serializableM kvs
  | .plist xs => serializableL xs
  | .pjson _ => true
  | .pbad _ => false

/-- Serializability of list elements. -/
def serializableL : List PyVal → Bool
  | [] => true
  | x :: t => serializablePy x && serializableL t

/-- Serializability of dict entries. -/
def serializableM : List (String × PyVal) → Bool
  | [] => true
  | (_, v) :: t => serializablePy v && serializableM t

end

mutual

/-- JSON image of a Python value: dicts become objects, lists become
arrays, serializable leaves are their own image.  For a non-serializable
leaf the image is its display string, which is exactly what _safe_map
substitutes; json.dumps itself never succeeds on such a value. -/
def jOf : PyVal → J
  | .pdict kvs => .jobj (jOfM kvs)
  | .plist xs => .jarr (jOfL xs)
  | .pjson v => v
  | .pbad s => .jstr s

/-- JSON images of list elements. -/
def jOfL : List PyVal → List J
  | [] => []
  | x :: t => jOf x :: jOfL t

/-- JSON images of dict entries. -/
def jOfM : List (String × PyVal) → List (String × J)
  | [] => []
  | (k, v) :: t => (k, jOf v) :: jOfM t

end

/-- Model of json.dumps on a pre-encoding Python value: raises (none)
exactly when a non-serializable leaf occurs, otherwise renders the JSON
image. -/
def json_dumps_py (p : PyVal) : Option (List Char) :=
  if serializablePy p then some (dumpsV (jOf p)) else none

/-- Numeric digits of a fraction read most-significant first. -/
def digitsNum (ds : List Nat) : Nat :=
  ds.foldl (fun a d => 10 * a + d) 0

/-- Numeric value of a Python value when Python treats it as a number for
the purposes of ==, as an exact fraction numerator/denominator pair (the
denominator is a power of ten).  Python's bool is a subtype of int, so True
compares equal to 1 and 1.0. -/
def numVal : J → Option (Int × Nat)
  | .jbool b => some (if b then 1 else 0, 1)
  | .jint n => some (n, 1)
  | .jnum neg ip frac =>
      let num : Int := ((ip * 10 ^ frac.length + digitsNum frac : Nat) : Int)
      some (if neg then -num else num, 10 ^ frac.length)
  | _ => none

/-- Equality of two exact fractions by cross multiplication. -/
def fracEq (x y : Int × Nat) : Bool :=
  x.1 * (y.2 : Int) == y.1 * (x.2 : Int)

/-- Lookup in a decoded JSON object, as a Python dict built by json.loads
behaves: with duplicate keys the last occurrence wins. -/
def dictGet (kvs : List (String × J)) (k : String) : Option J :=
  (kvs.reverse.find? (fun kv => kv.1 == k)).map (fun kv => kv.2)

mutual

/-- Model of Python's == on json-decoded values: numbers (bool, int,
float) compare by numeric value across types; None equals only None;
strings compare as strings; lists compare pointwise; dicts compare as
unordered key-value mappings. -/
def pyEq : J → J → Bool
  | a, b =>
      match numVal a, numVal b with
      | some x, some y => fracEq x y
      | _, _ =>
          match a, b with
          | .jnull, .jnull => true
          | .jstr s, .jstr t => s == t
          | .jarr xs, .jarr ys => pyEqL xs ys
          | .jobj m, .jobj n => (m.length == n.length) && pyEqSub m n
          | _, _ => false

/-- Pointwise Python equality on lists. -/
def pyEqL : List J → List J → Bool
  | [], [] => true
  | x :: xs, y :: ys => pyEq x y && pyEqL xs ys
  | _, _ => false

/-- Every entry of the first member list equals the corresponding entry of
the second under Python ==. -/
def pyEqSub : List (String × J) → List (String × J) → Bool
  | [], _ => true
  | (k, v) :: t, n =>
      (match dictGet n k with
       | some w => pyEq v w
       | none => false) && pyEqSub t n

end

/-- Python truthiness of a json-decoded value, as used by the source's
idiom r.get("params") or {}. -/
def pyTruthy : J → Bool
  | .jnull => false
  | .jbool b => b
  | .jint n => !(n == 0)
  | .jnum _ ip frac => !(ip * 10 ^ frac.length + digitsNum frac == 0)
  | .jstr s => !(s == "")
  | .jarr xs => !xs.isEmpty
  | .jobj kvs => !kvs.isEmpty

/-- Members of a decoded object; a well-formed record's params field is an
object (on any other value Python's params.get would raise, outside the
modelled domain). -/
def objMembers : J → List (String × J)
  | .jobj kvs => kvs
  | _ => []

/-- Default log file path of the module. -/
def HISTORY_PATH : String := "training_history.jsonl"

/-- Process-wide state touched by the module: the history file's lines
(none when the file does not exist), the auto-export interval and CSV
target path, the records held by the CSV export target (the real file has
a header row followed by one row per record; we model the record rows),
and the contents of the .bak backup file. -/
structure LogState where
  file : Option (List String)
  autoN : Option Int
  csvPath : String
  csv : Option (List J)
  bak : Option (List String)

/-- State at module import: no log file yet, auto-export disabled,
default CSV path. -/
def initState : LogState :=
  { file := none, autoN := none, csvPath := "training_history.csv",
    csv := none, bak := none }

/-- Parse the history lines as load_history does (src lines 89-105): strip
each line, skip blank lines, parse the rest, and silently skip lines that
fail to parse. -/
def loadLines (lines : List String) : List J :=
  lines.filterMap (fun l =>
    let s := pyStrip l
    if s.data.isEmpty then none else json_loads s)

/-- Model of load_history(): missing file yields an empty list (the
FileNotFoundError branch), otherwise the tolerant line scan. -/
def load_history (st : LogState) : List J :=
  match st.file with
  | none => []
  | some lines => loadLines lines

/-- Model of export_to_csv (src lines 247-268): load all records; when
none exist only print and leave the target untouched; otherwise rewrite
the target with a header row and one row per record.  Returns the new
state and the number of record rows written (none when nothing was
exported). -/
def export_to_csv (st : LogState) : LogState × Option Nat :=
  let records := load_history st
  if records.isEmpty then (st, none)
  else ({ st with csv := some records }, some records.length)

/-- Outcome of the f.flush(); os.fsync(...) step, with a failure
injection flag for the environments where fsync raises. -/
def fsyncOutcome (syncErr : Bool) : Except String Unit :=
  if syncErr then Except.error "OSError: fsync failed" else Except.ok ()

/-- Result of one append_run call: the new process state, the exception
surfaced to the caller if any, and the number of records written by a
triggered CSV auto-export (none when no export was performed). -/
structure AppendResult where
  st : LogState
  err : Option String
  exported : Option Nat

/-- Auto-export block at the end of append_run (src lines 76-86): when an
interval is configured and positive, recount the records and export to CSV
when the count is an exact multiple of the interval. -/
def autoExportStep (st1 : LogState) : LogState × Option Nat :=
  match st1.autoN with
  | some n =>
      if 0 < n then
        let total := (load_history st1).length
        if (total : Int) % n == 0 then export_to_csv st1
        else (st1, none)
      else (st1, none)
  | none => (st1, none)

/-- Model of append_run (src lines 27-86).  The record is built from the
caller's arguments plus a timestamp, passed through _safe_map, serialized,
and appended as one line; opening in append mode creates the file when
missing.  A serialization failure or an injected write failure propagates
(err set) after the open; a flush/fsync failure is swallowed by the
source's try/except, so both outcomes continue identically; finally the
auto-export block runs. -/
def append_run (st : LogState) (ts : String)
    (params metrics history model_paths : PyVal)
    (writeErr syncErr : Bool) : AppendResult :=
  let record : PyVal := .pdict
    [("timestamp", .pjson (.jstr ts)), ("params", params),
     ("metrics", metrics), ("history", history), ("model_paths", model_paths)]
  let safe := _safe_map record
  let lines := st.file.getD []
  match json_dumps_py safe with
  | none =>
      { st := { st with file := some lines },
        err := some "TypeError: not JSON serializable", exported := none }
  | some l =>
      if writeErr then
        { st := { st with file := some lines },
          err := some "OSError: write failed", exported := none }
      else
        let st1 := { st with file := some (lines ++ [String.mk l]) }
        match fsyncOutcome syncErr with
        | .ok _ =>
            let (st2, cnt) := autoExportStep st1
            { st := st2, err := none, exported := cnt }
        | .error _ =>
            let (st2, cnt) := autoExportStep st1
            { st := st2, err := none, exported := cnt }

/-- Model of get_last_run (src lines 210-215). -/
def get_last_run (st : LogState) : Option J :=
  let records := load_history st
  if records.isEmpty then none else records.getLast?

/-- Value Python's params.get(param_name) yields for a record, with the
source's params = r.get("params") or {} fallback; a missing name yields
Python None, modelled as jnull. -/
def paramLookup (r : J) (param_name : String) : J :=
  let params :=
    match dictGet (objMembers r) "params" with
    | some p => if pyTruthy p then objMembers p else []
    | none => []
  (dictGet params param_name).getD .jnull

/-- Model of find_runs_by_param (src lines 316-324): scan the loaded
records in order and keep those whose params entry compares equal to the
query value under Python ==. -/
def find_runs_by_param (st : LogState) (param_name : String) (value : J) : List J :=
  (load_history st).filter (fun r => pyEq (paramLookup r param_name) value)

/-- Model of enable_auto_export_csv (src lines 327-337): reject a missing
or non-positive interval before any state change; otherwise set the
interval, and the CSV path when given and non-empty (Python's truthiness
check on the string). -/
def enable_auto_export_csv (st : LogState) (n : Option Int)
    (csv_path : Option String) : LogState × Option String :=
  match n with
  | none => (st, some "ValueError: n must be a positive integer")
  | some m =>
      if m ≤ 0 then (st, some "ValueError: n must be a positive integer")
      else
        let st1 := { st with autoN := some m }
        let st2 :=
          match csv_path with
          | some p => if p = "" then st1 else { st1 with csvPath := p }
          | none => st1
        (st2, none)

/-- Model of disable_auto_export_csv (src lines 340-343). -/
def disable_auto_export_csv (st : LogState) : LogState :=
  { st with autoN := none }

/-- Counts reported by audit_history_file. -/
structure AuditReport where
  total_lines : Nat
  valid_json : Nat
  malformed_lines : Nat
deriving DecidableEq

/-- Suffix of the line from the first opening brace onward, modelling
s.find('{') followed by s[idx:]; none when no brace occurs. -/
def braceSuffix (cs : List Char) : Option (List Char) :=
  match cs.dropWhile (fun c => !(c = '{')) with
  | [] => none
  | l => some l

/-- One line of the audit scan (src lines 117-136): count the line; skip
blank lines; count a direct parse as valid; otherwise attempt one salvage
from the first brace, counting valid on success and malformed on
failure. -/
def auditStep (acc : Nat × Nat × Nat) (line : String) : Nat × Nat × Nat :=
  let t := acc.1 + 1
  let s := pyStrip line
  if s.data.isEmpty then (t, acc.2.1, acc.2.2)
  else if (json_loads s).isSome then (t, acc.2.1 + 1, acc.2.2)
  else
    match braceSuffix s.data with
    | some suf =>
        if (jsonLoadsChars suf).isSome then (t, acc.2.1 + 1, acc.2.2)
        else (t, acc.2.1, acc.2.2 + 1)
    | none => (t, acc.2.1, acc.2.2 + 1)

/-- Model of audit_history_file (src lines 108-139). -/
def audit_history_file (st : LogState) : AuditReport :=
  match st.file with
  | none => ⟨0, 0, 0⟩
  | some lines =>
      let r := lines.foldl auditStep (0, 0, 0)
      ⟨r.1, r.2.1, r.2.2⟩

/-- Suffixes of the line starting at each opening brace, in order,
modelling the source's first s.find('{') and the retry loop over every
subsequent brace index (src lines 174-189). -/
def braceTails : List Char → List (List Char)
  | [] => []
  | c :: t => if c = '{' then (c :: t) :: braceTails t else braceTails t

/-- Recovery of one stripped line during repair (src lines 166-191): a
direct parse wins; otherwise the suffixes from each brace position are
tried in order and the first that parses is kept; a line with no
salvageable suffix is skipped. -/
def repairLine (s : List Char) : Option J :=
  match jsonLoadsChars s with
  | some o => some o
  | none => (braceTails s).findSome? jsonLoadsChars

/-- Model of repair_history (src lines 142-207): missing file returns 0;
with backup requested the current lines are copied to the .bak path before
any change; the recovered records are rewritten (re-serialized) to the
log atomically; the count of recovered records is returned. -/
def repair_history (st : LogState) (backup : Bool) : LogState × Nat :=
  match st.file with
  | none => (st, 0)
  | some lines =>
      let st1 := if backup then { st with bak := some lines } else st
      let valid_records := lines.filterMap (fun l =>
        let s := pyStrip l
        if s.data.isEmpty then none else repairLine s.data)
      ({ st1 with file := some (valid_records.map (fun r => String.mk (dumpsV r))) },
       valid_records.length)

/-- Record built by append_run from its arguments, before encoding. -/
def recordOf (ts : String) (params metrics history model_paths : PyVal) : PyVal :=
  .pdict [("timestamp", .pjson (.jstr ts)), ("params", params),
          ("metrics", metrics), ("history", history), ("model_paths", model_paths)]

/-- Encoded (post-_safe_map) JSON form of an appended record. -/
def encodeRun (ts : String) (params metrics history model_paths : PyVal) : J :=
  jOf (_safe_map (recordOf ts params metrics history model_paths))

/-- Arguments of one append_run call. -/
structure RunArgs where
  ts : String
  params : PyVal
  metrics : PyVal
  history : PyVal
  model_paths : PyVal

/-- Encoded form of a RunArgs bundle. -/
def encodeArgs (a : RunArgs) : J :=
  encodeRun a.ts a.params a.metrics a.history a.model_paths

/-- Fold a sequence of append_run calls (no injected failures). -/
def appendAll (st : LogState) (runs : List RunArgs) : LogState :=
  runs.foldl (fun s a => (append_run s a.ts a.params a.metrics a.history a.model_paths false false).st) st

/-!
Basic lemmas: characters, whitespace skipping, decimal digits.
-/

theorem skipWs_cons_not_ws (c : Char) (t : List Char) (h : wsChar c = false) :
    skipWs (c :: t) = c :: t := by
  simp [skipWs, h]

theorem skipWs_ws_append (S X : List Char) (h : allWs S = true) :
    skipWs (S ++ X) = skipWs X := by
  induction S with
  | nil => rfl
  | cons c t ih =>
      simp only [allWs, List.all_cons, Bool.and_eq_true] at h
      simp only [List.cons_append, skipWs, h.1, if_true]
      exact ih (by simp [allWs, h.2])

theorem digit_not_ws (c : Char) (h : c.isDigit = true) : wsChar c = false := by
  by_contra hw
  rw [Bool.not_eq_false] at hw
  unfold wsChar at hw
  simp only [Bool.or_eq_true, decide_eq_true_eq] at hw
  rcases hw with ((((h1 | h1) | h1) | h1) | h1) | h1 <;> subst h1 <;> exact absurd h (by decide)

theorem digit_ne (c d : Char) (h : c.isDigit = true) (hd : d.isDigit = false) :
    c ≠ d := by
  intro e; subst e; rw [h] at hd; exact absurd hd (by decide)

theorem dval_digitChar (d : Nat) (h : d < 10) : dval (digitChar d) = d := by
  interval_cases d <;> rfl

theorem isDigit_digitChar (d : Nat) (h : d < 10) : (digitChar d).isDigit = true := by
  interval_cases d <;> rfl

theorem natDigitsF_fuel_irrel (n : Nat) : ∀ f f' : Nat, n < f → n < f' →
    natDigitsF f n = natDigitsF f' n := by
  induction n using Nat.strong_induction_on with
  | _ n ih =>
      intro f f' hf hf'
      obtain ⟨a, rfl⟩ : ∃ a, f = a + 1 := ⟨f - 1, by omega⟩
      obtain ⟨b, rfl⟩ : ∃ b, f' = b + 1 := ⟨f' - 1, by omega⟩
      by_cases h10 : n < 10
      · simp [natDigitsF, h10]
      · simp only [natDigitsF, if_neg h10]
        rw [ih (n / 10) (Nat.div_lt_self (by omega) (by omega)) a b
          (by have := Nat.div_lt_self (show 0 < n by omega) (show 1 < 10 by omega); omega)
          (by have := Nat.div_lt_self (show 0 < n by omega) (show 1 < 10 by omega); omega)]

theorem natDigits_eq_rec (n : Nat) :
    natDigits n = if n < 10 then [digitChar n]
      else natDigits (n / 10) ++ [digitChar (n % 10)] := by
  show natDigitsF (n + 1) n = _
  by_cases h10 : n < 10
  · simp [natDigitsF, h10]
  · simp only [natDigitsF, if_neg h10]
    rw [natDigitsF_fuel_irrel (n / 10) n (n / 10 + 1)
      (by have := Nat.div_lt_self (show 0 < n by omega) (show 1 < 10 by omega); omega)
      (by omega)]
    rfl

theorem natDigits_ne_nil (n : Nat) : natDigits n ≠ [] := by
  rw [natDigits_eq_rec]
  split <;> simp

theorem natDigits_all_digit (n : Nat) : ∀ c ∈ natDigits n, c.isDigit = true := by
  induction n using Nat.strong_induction_on with
  | _ n ih =>
      rw [natDigits_eq_rec]
      split
      · next h => intro c hc; simp at hc; subst hc; exact isDigit_digitChar n h
      · next h =>
          intro c hc
          simp only [List.mem_append, List.mem_singleton] at hc
          rcases hc with hc | hc
          · exact ih (n / 10) (Nat.div_lt_self (by omega) (by omega)) c hc
          · subst hc; exact isDigit_digitChar (n % 10) (Nat.mod_lt _ (by omega))

theorem valDigits_append_one (ds : List Char) (c : Char) :
    valDigits (ds ++ [c]) = 10 * valDigits ds + dval c := by
  simp [valDigits, List.foldl_append]

theorem valDigits_natDigits (n : Nat) : valDigits (natDigits n) = n := by
  induction n using Nat.strong_induction_on with
  | _ n ih =>
      rw [natDigits_eq_rec]
      split
      · next h =>
          show valDigits [digitChar n] = n
          simp [valDigits, dval_digitChar n h]
      · next h =>
          rw [valDigits_append_one, ih (n / 10) (Nat.div_lt_self (by omega) (by omega)),
            dval_digitChar (n % 10) (Nat.mod_lt _ (by omega))]
          omega

theorem takeDigits_append (ds rest : List Char) (hds : ∀ c ∈ ds, c.isDigit = true)
    (hrest : nonDigitStart rest = true) : takeDigits (ds ++ rest) = (ds, rest) := by
  induction ds with
  | nil =>
      simp only [List.nil_append]
      cases rest with
      | nil => rfl
      | cons c t =>
          simp only [nonDigitStart, Bool.not_eq_true'] at hrest
          simp [takeDigits, hrest]
  | cons d ds ih =>
      have hd : d.isDigit = true := hds d (by simp)
      simp only [List.cons_append, takeDigits, hd, if_true, List.append_eq]
      rw [ih (fun c hc => hds c (by simp [hc]))]

theorem parseStrBody_escape (l : List Char) (rest : List Char)
    (h : l.all wfChar = true) :
    parseStrBody (escapeChars l ++ '"' :: rest) = some (l, rest) := by
  induction l with
  | nil => rw [show escapeChars [] = [] from rfl, List.nil_append, parseStrBody.eq_def]; simp
  | cons c t ih =>
      simp only [List.all_cons, Bool.and_eq_true] at h
      have iht := ih h.2
      simp only [escapeChars]
      split_ifs with h1 h2 h3 h4 h5
      · subst h1; rw [List.cons_append, List.cons_append, parseStrBody.eq_def]; simp [iht]
      · subst h2; rw [List.cons_append, List.cons_append, parseStrBody.eq_def]; simp [iht]
      · subst h3; rw [List.cons_append, List.cons_append, parseStrBody.eq_def]; simp [iht]
      · subst h4; rw [List.cons_append, List.cons_append, parseStrBody.eq_def]; simp [iht]
      · subst h5; rw [List.cons_append, List.cons_append, parseStrBody.eq_def]; simp [iht]
      · have hge : 32 ≤ c.toNat := by
          have := h.1
          unfold wfChar at this
          simp only [Bool.or_eq_true, decide_eq_true_eq] at this
          rcases this with ((hx | hx) | hx) | hx
          · omega
          · exact absurd hx h3
          · exact absurd hx h4
          · exact absurd hx h5
        rw [List.cons_append, parseStrBody.eq_def]
        simp only [if_neg h2, if_neg h1, if_neg (by omega : ¬ c.toNat < 32), iht]

theorem nonDigitStart_of_nonDigitDotStart (rest : List Char)
    (h : nonDigitDotStart rest = true) : nonDigitStart rest = true := by
  cases rest with
  | nil => rfl
  | cons c t =>
      simp only [nonDigitDotStart, Bool.and_eq_true] at h
      simp [nonDigitStart, h.1]

theorem parseNumAfterSign_int (n : Nat) (rest : List Char)
    (hrest : nonDigitDotStart rest = true) :
    parseNumAfterSign (natDigits n ++ rest) = some ((n, none), rest) := by
  unfold parseNumAfterSign
  rw [takeDigits_append _ _ (natDigits_all_digit n) (nonDigitStart_of_nonDigitDotStart rest hrest)]
  simp only [if_neg (natDigits_ne_nil n)]
  cases rest with
  | nil => simp [valDigits_natDigits]
  | cons c t =>
      simp only [nonDigitDotStart, Bool.and_eq_true, Bool.not_eq_true', Bool.not_eq_true] at hrest
      have hc : ¬ c = '.' := by
        intro e
        rw [e] at hrest
        simp at hrest
      simp only [if_neg hc, valDigits_natDigits]

theorem parseNumAfterSign_frac (n : Nat) (frac : List Nat) (rest : List Char)
    (hne : frac ≠ []) (hd : ∀ d ∈ frac, d < 10)
    (hrest : nonDigitStart rest = true) :
    parseNumAfterSign (natDigits n ++ '.' :: frac.map digitChar ++ rest) =
      some ((n, some frac), rest) := by
  unfold parseNumAfterSign
  rw [List.append_assoc, takeDigits_append _ _ (natDigits_all_digit n) (by rfl)]
  simp only [if_neg (natDigits_ne_nil n)]
  have hdig : ∀ c ∈ frac.map digitChar, c.isDigit = true := by
    intro c hc
    rcases List.mem_map.mp hc with ⟨d, hdm, rfl⟩
    exact isDigit_digitChar d (hd d hdm)
  rw [show ('.' :: frac.map digitChar ++ rest : List Char) = '.' :: (frac.map digitChar ++ rest) from rfl]
  simp only [if_pos rfl, takeDigits_append _ _ hdig hrest]
  have hm : ¬ (frac.map digitChar) = [] := by simp [hne]
  rw [if_neg hm, valDigits_natDigits]
  have : (frac.map digitChar).map dval = frac := by
    rw [List.map_map]
    have h2 : (dval ∘ digitChar) = fun d => dval (digitChar d) := rfl
    rw [h2]
    calc frac.map (fun d => dval (digitChar d))
        = frac.map id := List.map_congr_left (fun d hdm => dval_digitChar d (hd d hdm))
      _ = frac := List.map_id frac
  rw [this]
  simp

theorem natDigits_head (n : Nat) :
    ∃ c cs, natDigits n = c :: cs ∧ c.isDigit = true := by
  cases hnd : natDigits n with
  | nil => exact absurd hnd (natDigits_ne_nil n)
  | cons c cs =>
      exact ⟨c, cs, rfl, natDigits_all_digit n c (by rw [hnd]; simp)⟩

theorem dumpsV_start (v : J) :
    ∃ c cs, dumpsV v = c :: cs ∧ wsChar c = false ∧ c ≠ ']' ∧ c ≠ '}' := by
  cases v with
  | jnull => exact ⟨'n', _, rfl, by decide, by decide, by decide⟩
  | jbool b =>
      cases b <;> exact ⟨_, _, rfl, by decide, by decide, by decide⟩
  | jint n =>
      show ∃ c cs, dumpsInt n = c :: cs ∧ _
      unfold dumpsInt
      split
      · exact ⟨'-', _, rfl, by decide, by decide, by decide⟩
      · rcases natDigits_head n.natAbs with ⟨c, cs, heq, hdig⟩
        exact ⟨c, cs, heq, digit_not_ws c hdig, digit_ne c ']' hdig (by decide),
          digit_ne c '}' hdig (by decide)⟩
  | jnum neg ip frac =>
      show ∃ c cs, dumpsNum neg ip frac = c :: cs ∧ _
      unfold dumpsNum
      cases neg with
      | true => exact ⟨'-', _, rfl, by decide, by decide, by decide⟩
      | false =>
          rcases natDigits_head ip with ⟨c, cs, heq, hdig⟩
          refine ⟨c, cs ++ '.' :: frac.map digitChar, ?_, digit_not_ws c hdig,
            digit_ne c ']' hdig (by decide), digit_ne c '}' hdig (by decide)⟩
          simp [heq]
  | jstr s => exact ⟨'"', _, rfl, by decide, by decide, by decide⟩
  | jarr xs => exact ⟨'[', _, rfl, by decide, by decide, by decide⟩
  | jobj kvs => exact ⟨'{', _, rfl, by decide, by decide, by decide⟩

mutual

theorem Wv_le : ∀ v : J, Wv v ≤ (dumpsV v).length + 1
  | .jnull => by simp [Wv, dumpsV]
  | .jbool b => by cases b <;> simp [Wv, dumpsV]
  | .jint n => by simp [Wv]
  | .jnum neg ip frac => by simp [Wv]
  | .jstr s => by simp [Wv]
  | .jarr xs => by
      have h := Wl_le xs
      simp only [Wv, dumpsV, List.length_cons, List.length_append, List.length_singleton]
      omega
  | .jobj kvs => by
      have h := Wm_le kvs
      simp only [Wv, dumpsV, List.length_cons, List.length_append, List.length_singleton]
      omega

theorem Wl_le : ∀ xs : List J, Wl xs ≤ (dumpsL xs).length + 2
  | [] => by simp [Wl, dumpsL]
  | [x] => by
      have h := Wv_le x
      simp only [Wl, dumpsL]
      omega
  | x :: y :: t => by
      have h1 := Wv_le x
      have h2 := Wl_le (y :: t)
      simp only [Wl, dumpsL, List.length_append, List.length_cons]
      omega

theorem Wm_le : ∀ kvs : List (String × J), Wm kvs ≤ (dumpsM kvs).length + 2
  | [] => by simp [Wm, dumpsM]
  | [(k, v)] => by
      have h := Wv_le v
      simp only [Wm, dumpsM, List.length_append, List.length_cons]
      omega
  | (k, v) :: m :: t => by
      have h1 := Wv_le v
      have h2 := Wm_le (m :: t)
      simp only [Wm, dumpsM, List.length_append, List.length_cons]
      omega

end

theorem Wv_pos (v : J) : 1 ≤ Wv v := by
  cases v <;> simp [Wv]

theorem Wl_pos (xs : List J) : 1 ≤ Wl xs := by
  cases xs with
  | nil => simp [Wl]
  | cons x t =>
      cases t with
      | nil => simp [Wl]
      | cons y tt => simp [Wl]; omega

theorem Wm_pos (kvs : List (String × J)) : 1 ≤ Wm kvs := by
  cases kvs with
  | nil => simp [Wm]
  | cons x t =>
      rcases x with ⟨k, v⟩
      cases t with
      | nil => simp [Wm]
      | cons y tt => simp [Wm]; omega

theorem string_mk_data (s : String) : String.mk s.data = s := by
  cases s
  rfl

theorem dumpsL_start (xs : List J) (h : xs ≠ []) :
    ∃ c cs, dumpsL xs = c :: cs ∧ wsChar c = false ∧ c ≠ ']' := by
  match xs with
  | [x] =>
      rcases dumpsV_start x with ⟨c, cs, heq, hws, hrb, _⟩
      exact ⟨c, cs, by simp [dumpsL, heq], hws, hrb⟩
  | x :: y :: t =>
      rcases dumpsV_start x with ⟨c, cs, heq, hws, hrb, _⟩
      exact ⟨c, cs ++ ',' :: ' ' :: dumpsL (y :: t), by simp [dumpsL, heq], hws, hrb⟩

theorem dumpsM_start (kvs : List (String × J)) (h : kvs ≠ []) :
    ∃ cs, dumpsM kvs = '"' :: cs := by
  match kvs with
  | [(k, v)] =>
      refine ⟨escapeChars k.data ++ '"' :: ':' :: ' ' :: dumpsV v, ?_⟩
      simp [dumpsM, dumpsStr]
  | (k, v) :: m :: t =>
      refine ⟨escapeChars k.data ++ '"' :: ':' :: ' ' :: (dumpsV v ++ ',' :: ' ' :: dumpsM (m :: t)), ?_⟩
      simp [dumpsM, dumpsStr]

mutual

theorem parseVal_complete : ∀ (v : J) (S rest : List Char) (fuel : Nat),
    wfV v = true → allWs S = true → Wv v ≤ fuel → nonDigitDotStart rest = true →
    parseVal fuel (S ++ dumpsV v ++ rest) = some (v, rest)
  | .jnull, S, rest, fuel, hwf, hS, hfuel, hrest => by
      obtain ⟨f, rfl⟩ : ∃ f, fuel = f + 1 := ⟨fuel - 1, by have := Wv_pos J.jnull; omega⟩
      rw [parseVal.eq_def]
      simp only [dumpsV]
      rw [show (S ++ ['n', 'u', 'l', 'l'] ++ rest : List Char)
            = S ++ 'n' :: ('u' :: 'l' :: 'l' :: rest) by simp]
      rw [skipWs_ws_append _ _ hS, skipWs_cons_not_ws _ _ (by decide)]
      simp [parseKeyword]
  | .jbool true, S, rest, fuel, hwf, hS, hfuel, hrest => by
      obtain ⟨f, rfl⟩ : ∃ f, fuel = f + 1 := ⟨fuel - 1, by have := Wv_pos (J.jbool true); omega⟩
      rw [parseVal.eq_def]
      simp only [dumpsV]
      rw [show (S ++ ['t', 'r', 'u', 'e'] ++ rest : List Char)
            = S ++ 't' :: ('r' :: 'u' :: 'e' :: rest) by simp]
      rw [skipWs_ws_append _ _ hS, skipWs_cons_not_ws _ _ (by decide)]
      simp [parseKeyword]
  | .jbool false, S, rest, fuel, hwf, hS, hfuel, hrest => by
      obtain ⟨f, rfl⟩ : ∃ f, fuel = f + 1 := ⟨fuel - 1, by have := Wv_pos (J.jbool false); omega⟩
      rw [parseVal.eq_def]
      simp only [dumpsV]
      rw [show (S ++ ['f', 'a', 'l', 's', 'e'] ++ rest : List Char)
            = S ++ 'f' :: ('a' :: 'l' :: 's' :: 'e' :: rest) by simp]
      rw [skipWs_ws_append _ _ hS, skipWs_cons_not_ws _ _ (by decide)]
      simp [parseKeyword]
  | .jint n, S, rest, fuel, hwf, hS, hfuel, hrest => by
      obtain ⟨f, rfl⟩ : ∃ f, fuel = f + 1 := ⟨fuel - 1, by have := Wv_pos (J.jint n); omega⟩
      rw [parseVal.eq_def]
      simp only [dumpsV]
      by_cases hn : n < 0
      · rw [show dumpsInt n = '-' :: natDigits n.natAbs by simp [dumpsInt, hn]]
        rw [show (S ++ '-' :: natDigits n.natAbs ++ rest : List Char)
              = S ++ '-' :: (natDigits n.natAbs ++ rest) by simp]
        rw [skipWs_ws_append _ _ hS, skipWs_cons_not_ws _ _ (by decide)]
        simp only []
        rw [if_pos trivial, parseNumAfterSign_int _ _ hrest]
        simp only []
        rw [show (-((n.natAbs : Nat) : Int)) = n by omega]
      · rw [show dumpsInt n = natDigits n.natAbs by simp [dumpsInt, hn]]
        rcases natDigits_head n.natAbs with ⟨c, cs, heq, hdig⟩
        rw [heq]
        rw [show (S ++ (c :: cs) ++ rest : List Char) = S ++ c :: (cs ++ rest) by simp]
        rw [skipWs_ws_append _ _ hS, skipWs_cons_not_ws _ _ (digit_not_ws c hdig)]
        simp only []
        rw [if_neg (digit_ne c '-' hdig (by decide)), if_pos hdig]
        rw [show (c :: (cs ++ rest) : List Char) = (c :: cs) ++ rest by simp, ← heq]
        rw [parseNumAfterSign_int _ _ hrest]
        simp only []
        rw [show (((n.natAbs : Nat) : Int)) = n by omega]
  | .jnum neg ip frac, S, rest, fuel, hwf, hS, hfuel, hrest => by
      obtain ⟨f, rfl⟩ : ∃ f, fuel = f + 1 :=
        ⟨fuel - 1, by have := Wv_pos (J.jnum neg ip frac); omega⟩
      rw [parseVal.eq_def]
      simp only [dumpsV]
      simp only [wfV, Bool.and_eq_true, Bool.not_eq_true', List.all_eq_true,
        decide_eq_true_eq] at hwf
      have hne : frac ≠ [] := by
        intro e
        rw [e] at hwf
        exact absurd hwf.1 (by decide)
      have hd : ∀ d ∈ frac, d < 10 := hwf.2
      have hnds : nonDigitStart rest = true := nonDigitStart_of_nonDigitDotStart rest hrest
      cases neg with
      | true =>
          rw [show dumpsNum true ip frac = '-' :: (natDigits ip ++ '.' :: frac.map digitChar)
                by simp [dumpsNum]]
          rw [show (S ++ '-' :: (natDigits ip ++ '.' :: frac.map digitChar) ++ rest : List Char)
                = S ++ '-' :: (natDigits ip ++ '.' :: frac.map digitChar ++ rest) by simp]
          rw [skipWs_ws_append _ _ hS, skipWs_cons_not_ws _ _ (by decide)]
          simp only []
          rw [if_pos trivial, parseNumAfterSign_frac ip frac rest hne hd hnds]
      | false =>
          rw [show dumpsNum false ip frac = natDigits ip ++ '.' :: frac.map digitChar
                by simp [dumpsNum]]
          rcases natDigits_head ip with ⟨c, cs, heq, hdig⟩
          rw [heq]
          rw [show (S ++ (c :: cs ++ '.' :: frac.map digitChar) ++ rest : List Char)
                = S ++ c :: (cs ++ '.' :: frac.map digitChar ++ rest) by simp]
          rw [skipWs_ws_append _ _ hS, skipWs_cons_not_ws _ _ (digit_not_ws c hdig)]
          simp only []
          rw [if_neg (digit_ne c '-' hdig (by decide)), if_pos hdig]
          rw [show (c :: (cs ++ '.' :: frac.map digitChar ++ rest) : List Char)
                = (c :: cs) ++ '.' :: frac.map digitChar ++ rest by simp, ← heq]
          rw [parseNumAfterSign_frac ip frac rest hne hd hnds]
  | .jstr s, S, rest, fuel, hwf, hS, hfuel, hrest => by
      obtain ⟨f, rfl⟩ : ∃ f, fuel = f + 1 := ⟨fuel - 1, by have := Wv_pos (J.jstr s); omega⟩
      rw [parseVal.eq_def]
      simp only [dumpsV, dumpsStr]
      rw [show (S ++ ('"' :: escapeChars s.data ++ ['"']) ++ rest : List Char)
            = S ++ '"' :: (escapeChars s.data ++ '"' :: rest) by simp]
      rw [skipWs_ws_append _ _ hS, skipWs_cons_not_ws _ _ (by decide)]
      have hwfs : s.data.all wfChar = true := hwf
      simp [parseStrBody_escape s.data rest hwfs, string_mk_data]
  | .jarr [], S, rest, fuel, hwf, hS, hfuel, hrest => by
      obtain ⟨f, rfl⟩ : ∃ f, fuel = f + 1 := ⟨fuel - 1, by have := Wv_pos (J.jarr []); omega⟩
      rw [parseVal.eq_def]
      simp only [dumpsV, dumpsL]
      rw [show (S ++ ('[' :: [] ++ [']']) ++ rest : List Char)
            = S ++ '[' :: (']' :: rest) by simp]
      rw [skipWs_ws_append _ _ hS, skipWs_cons_not_ws _ _ (by decide)]
      simp [skipWs_cons_not_ws _ _ (by decide : wsChar ']' = false)]
  | .jarr (x :: t), S, rest, fuel, hwf, hS, hfuel, hrest => by
      obtain ⟨f, rfl⟩ : ∃ f, fuel = f + 1 :=
        ⟨fuel - 1, by have := Wv_pos (J.jarr (x :: t)); omega⟩
      rw [parseVal.eq_def]
      simp only [dumpsV]
      rw [show (S ++ ('[' :: dumpsL (x :: t) ++ [']']) ++ rest : List Char)
            = S ++ '[' :: (dumpsL (x :: t) ++ ']' :: rest) by simp]
      rw [skipWs_ws_append _ _ hS, skipWs_cons_not_ws _ _ (by decide)]
      simp only []
      simp only [if_neg (by decide : ¬ ('[' : Char) = '-'),
        if_neg (by simp : ¬ ('[' : Char).isDigit = true),
        if_neg (by decide : ¬ ('[' : Char) = '"'), if_pos trivial]
      rcases dumpsL_start (x :: t) (by simp) with ⟨c, cs, heq, hws, hrb⟩
      rw [heq]
      rw [show ((c :: cs) ++ ']' :: rest : List Char) = c :: (cs ++ ']' :: rest) by simp]
      rw [skipWs_cons_not_ws _ _ hws]
      have hfull : parseElems1 f (dumpsL (x :: t) ++ ']' :: rest) = some (x :: t, rest) := by
        have := parseElems1_complete (x :: t) [] rest f (by simp)
          (by simpa [wfV] using hwf) rfl
          (by have : Wv (J.jarr (x :: t)) = 1 + Wl (x :: t) := rfl; omega)
        simpa using this
      rw [heq] at hfull
      rw [show ((c :: cs) ++ ']' :: rest : List Char) = c :: (cs ++ ']' :: rest) by simp] at hfull
      split
      · next heq2 =>
          exact absurd (List.cons.inj heq2).1 hrb
      · next =>
          rw [hfull]
  | .jobj [], S, rest, fuel, hwf, hS, hfuel, hrest => by
      obtain ⟨f, rfl⟩ : ∃ f, fuel = f + 1 := ⟨fuel - 1, by have := Wv_pos (J.jobj []); omega⟩
      rw [parseVal.eq_def]
      simp only [dumpsV, dumpsM]
      rw [show (S ++ ('{' :: [] ++ ['}']) ++ rest : List Char)
            = S ++ '{' :: ('}' :: rest) by simp]
      rw [skipWs_ws_append _ _ hS, skipWs_cons_not_ws _ _ (by decide)]
      simp [skipWs_cons_not_ws _ _ (by decide : wsChar '}' = false)]
  | .jobj (m :: t), S, rest, fuel, hwf, hS, hfuel, hrest => by
      obtain ⟨f, rfl⟩ : ∃ f, fuel = f + 1 :=
        ⟨fuel - 1, by have := Wv_pos (J.jobj (m :: t)); omega⟩
      rw [parseVal.eq_def]
      simp only [dumpsV]
      rw [show (S ++ ('{' :: dumpsM (m :: t) ++ ['}']) ++ rest : List Char)
            = S ++ '{' :: (dumpsM (m :: t) ++ '}' :: rest) by simp]
      rw [skipWs_ws_append _ _ hS, skipWs_cons_not_ws _ _ (by decide)]
      simp only []
      simp only [if_neg (by decide : ¬ ('{' : Char) = '-'),
        if_neg (by simp : ¬ ('{' : Char).isDigit = true),
        if_neg (by decide : ¬ ('{' : Char) = '"'),
        if_neg (by decide : ¬ ('{' : Char) = '['), if_pos trivial]
      rcases dumpsM_start (m :: t) (by simp) with ⟨cs, heq⟩
      rw [heq]
      rw [show (('"' :: cs) ++ '}' :: rest : List Char) = '"' :: (cs ++ '}' :: rest) by simp]
      rw [skipWs_cons_not_ws _ _ (by decide)]
      have hfull : parseMembers1 f (dumpsM (m :: t) ++ '}' :: rest) = some (m :: t, rest) := by
        have := parseMembers1_complete (m :: t) [] rest f (by simp)
          (by simpa [wfV] using hwf) rfl
          (by have : Wv (J.jobj (m :: t)) = 1 + Wm (m :: t) := rfl; omega)
        simpa using this
      rw [heq] at hfull
      rw [show (('"' :: cs) ++ '}' :: rest : List Char) = '"' :: (cs ++ '}' :: rest) by simp] at hfull
      split
      · next heq2 =>
          exact absurd (List.cons.inj heq2).1 (by decide)
      · next =>
          rw [hfull]

theorem parseElems1_complete : ∀ (xs : List J) (S rest : List Char) (fuel : Nat),
    xs ≠ [] → wfL xs = true → allWs S = true → Wl xs ≤ fuel →
    parseElems1 fuel (S ++ dumpsL xs ++ ']' :: rest) = some (xs, rest)
  | [x], S, rest, fuel, hne, hwf, hS, hfuel => by
      obtain ⟨f, rfl⟩ : ∃ f, fuel = f + 1 := ⟨fuel - 1, by have := Wl_pos [x]; omega⟩
      rw [parseElems1.eq_def]
      simp only [dumpsL]
      have hx : parseVal f (S ++ dumpsV x ++ ']' :: rest) = some (x, ']' :: rest) :=
        parseVal_complete x S (']' :: rest) f
          (by simpa [wfL] using hwf) hS
          (by have : Wl [x] = 1 + Wv x := rfl; omega) (by rfl)
      rw [hx]
      simp only []
      rw [skipWs_cons_not_ws _ _ (by decide)]
      simp
  | x :: y :: t, S, rest, fuel, hne, hwf, hS, hfuel => by
      obtain ⟨f, rfl⟩ : ∃ f, fuel = f + 1 := ⟨fuel - 1, by have := Wl_pos (x :: y :: t); omega⟩
      rw [parseElems1.eq_def]
      simp only [dumpsL]
      have hWl : Wl (x :: y :: t) = 1 + Wv x + Wl (y :: t) := rfl
      have hwf2 : wfV x = true ∧ wfL (y :: t) = true := by
        have h := hwf
        rw [wfL] at h
        simp only [Bool.and_eq_true] at h
        exact h
      rw [show (S ++ (dumpsV x ++ ',' :: ' ' :: dumpsL (y :: t)) ++ ']' :: rest : List Char)
            = S ++ dumpsV x ++ ',' :: (' ' :: (dumpsL (y :: t) ++ ']' :: rest)) by simp]
      have hx : parseVal f (S ++ dumpsV x ++ ',' :: (' ' :: (dumpsL (y :: t) ++ ']' :: rest)))
          = some (x, ',' :: (' ' :: (dumpsL (y :: t) ++ ']' :: rest))) :=
        parseVal_complete x S (',' :: (' ' :: (dumpsL (y :: t) ++ ']' :: rest))) f
          hwf2.1 hS (by omega) (by rfl)
      rw [hx]
      simp only []
      rw [skipWs_cons_not_ws _ _ (by decide)]
      have htail : parseElems1 f (' ' :: (dumpsL (y :: t) ++ ']' :: rest)) = some (y :: t, rest) := by
        have := parseElems1_complete (y :: t) [' '] rest f (by simp)
          hwf2.2 (by decide) (by omega)
        simpa using this
      simp [htail]

theorem parseMembers1_complete : ∀ (kvs : List (String × J)) (S rest : List Char) (fuel : Nat),
    kvs ≠ [] → wfM kvs = true → allWs S = true → Wm kvs ≤ fuel →
    parseMembers1 fuel (S ++ dumpsM kvs ++ '}' :: rest) = some (kvs, rest)
  | [(k, v)], S, rest, fuel, hne, hwf, hS, hfuel => by
      obtain ⟨f, rfl⟩ : ∃ f, fuel = f + 1 := ⟨fuel - 1, by have := Wm_pos [(k, v)]; omega⟩
      rw [parseMembers1.eq_def]
      simp only [dumpsM, dumpsStr]
      have hwf2 : wfStr k = true ∧ wfV v = true := by
        have h := hwf
        rw [wfM] at h
        simp only [Bool.and_eq_true, wfM] at h
        exact ⟨h.1.1, h.1.2⟩
      rw [show (S ++ (('"' :: escapeChars k.data ++ ['"']) ++ ':' :: ' ' :: dumpsV v) ++ '}' :: rest : List Char)
            = S ++ '"' :: (escapeChars k.data ++ '"' :: (':' :: (' ' :: (dumpsV v ++ '}' :: rest)))) by simp]
      rw [skipWs_ws_append _ _ hS, skipWs_cons_not_ws _ _ (by decide)]
      simp only []
      rw [parseStrBody_escape k.data _ hwf2.1]
      simp only []
      rw [skipWs_cons_not_ws _ _ (by decide)]
      simp only []
      have hv : parseVal f (' ' :: (dumpsV v ++ '}' :: rest)) = some (v, '}' :: rest) := by
        have := parseVal_complete v [' '] ('}' :: rest) f hwf2.2 (by decide)
          (by have : Wm [(k, v)] = 1 + Wv v := rfl; omega) (by rfl)
        simpa using this
      simp [hv, skipWs_cons_not_ws _ _ (by decide : wsChar '}' = false), string_mk_data]
  | (k, v) :: m :: t, S, rest, fuel, hne, hwf, hS, hfuel => by
      obtain ⟨f, rfl⟩ : ∃ f, fuel = f + 1 :=
        ⟨fuel - 1, by have := Wm_pos ((k, v) :: m :: t); omega⟩
      rw [parseMembers1.eq_def]
      simp only [dumpsM, dumpsStr]
      have hwf2 : (wfStr k = true ∧ wfV v = true) ∧ wfM (m :: t) = true := by
        have h := hwf
        rw [wfM] at h
        simp only [Bool.and_eq_true] at h
        exact ⟨⟨h.1.1, h.1.2⟩, h.2⟩
      have hWm : Wm ((k, v) :: m :: t) = 1 + Wv v + Wm (m :: t) := rfl
      rw [show (S ++ (('"' :: escapeChars k.data ++ ['"']) ++ ':' :: ' ' :: dumpsV v ++ ',' :: ' ' :: dumpsM (m :: t)) ++ '}' :: rest : List Char)
            = S ++ '"' :: (escapeChars k.data ++ '"' :: (':' :: (' ' :: (dumpsV v ++ ',' :: (' ' :: (dumpsM (m :: t) ++ '}' :: rest)))))) by simp]
      rw [skipWs_ws_append _ _ hS, skipWs_cons_not_ws _ _ (by decide)]
      simp only []
      rw [parseStrBody_escape k.data _ hwf2.1.1]
      simp only []
      rw [skipWs_cons_not_ws _ _ (by decide)]
      simp only []
      have hv : parseVal f (' ' :: (dumpsV v ++ ',' :: (' ' :: (dumpsM (m :: t) ++ '}' :: rest))))
          = some (v, ',' :: (' ' :: (dumpsM (m :: t) ++ '}' :: rest))) := by
        have := parseVal_complete v [' ']
          (',' :: (' ' :: (dumpsM (m :: t) ++ '}' :: rest))) f
          hwf2.1.2 (by decide) (by omega) (by rfl)
        simpa using this
      rw [hv]
      simp only []
      rw [skipWs_cons_not_ws _ _ (by decide)]
      have htail : parseMembers1 f (' ' :: (dumpsM (m :: t) ++ '}' :: rest)) = some (m :: t, rest) := by
        have := parseMembers1_complete (m :: t) [' '] rest f (by simp) hwf2.2 (by decide) (by omega)
        simpa using this
      simp [htail, string_mk_data]

end

theorem json_loads_dumps (v : J) (h : wfV v = true) :
    json_loads (String.mk (dumpsV v)) = some v := by
  show jsonLoadsChars (String.mk (dumpsV v)).data = some v
  rw [show (String.mk (dumpsV v)).data = dumpsV v from rfl]
  unfold jsonLoadsChars
  have hcomp := parseVal_complete v [] [] ((dumpsV v).length + 1) h rfl
    (by have := Wv_le v; omega) rfl
  rw [List.nil_append, List.append_nil] at hcomp
  rw [hcomp]
  simp [skipWs]

theorem rev_head_digit (l : List Char) (hne : l ≠ []) (hall : ∀ c ∈ l, c.isDigit = true) :
    ∃ c cs, l.reverse = c :: cs ∧ c.isDigit = true := by
  cases hrev : l.reverse with
  | nil => exact absurd (by simpa using congrArg List.reverse hrev) hne
  | cons c cs =>
      refine ⟨c, cs, rfl, hall c ?_⟩
      have : c ∈ l.reverse := by rw [hrev]; simp
      simpa using this

theorem natDigits_last (n : Nat) :
    ∃ c cs, (natDigits n).reverse = c :: cs ∧ c.isDigit = true :=
  rev_head_digit _ (natDigits_ne_nil n) (natDigits_all_digit n)

theorem dumpsV_last (v : J) (hwf : wfV v = true) :
    ∃ c cs, (dumpsV v).reverse = c :: cs ∧ wsChar c = false := by
  cases v with
  | jnull => exact ⟨'l', ['l', 'u', 'n'], by rfl, by decide⟩
  | jbool b =>
      cases b with
      | true => exact ⟨'e', ['u', 'r', 't'], by rfl, by decide⟩
      | false => exact ⟨'e', ['s', 'l', 'a', 'f'], by rfl, by decide⟩
  | jint n =>
      show ∃ c cs, (dumpsInt n).reverse = c :: cs ∧ wsChar c = false
      rcases natDigits_last n.natAbs with ⟨c, cs, hrev, hdig⟩
      unfold dumpsInt
      split
      · exact ⟨c, cs ++ ['-'], by simp [hrev], digit_not_ws c hdig⟩
      · exact ⟨c, cs, hrev, digit_not_ws c hdig⟩
  | jnum neg ip frac =>
      show ∃ c cs, (dumpsNum neg ip frac).reverse = c :: cs ∧ wsChar c = false
      simp only [wfV, Bool.and_eq_true, Bool.not_eq_true', List.all_eq_true,
        decide_eq_true_eq] at hwf
      have hne : frac.map digitChar ≠ [] := by
        intro e
        rw [List.map_eq_nil_iff] at e
        rw [e] at hwf
        exact absurd hwf.1 (by decide)
      have hall : ∀ c ∈ frac.map digitChar, c.isDigit = true := by
        intro c hc
        rcases List.mem_map.mp hc with ⟨d, hdm, rfl⟩
        exact isDigit_digitChar d (hwf.2 d hdm)
      rcases rev_head_digit _ hne hall with ⟨c, cs, hrev, hdig⟩
      unfold dumpsNum
      refine ⟨c, cs ++ ('.' :: (natDigits ip).reverse)
        ++ (if neg then ['-'] else []).reverse, ?_, digit_not_ws c hdig⟩
      rw [List.reverse_append, List.reverse_append]
      simp [hrev]
  | jstr s =>
      show ∃ c cs, (dumpsStr s).reverse = c :: cs ∧ wsChar c = false
      unfold dumpsStr
      exact ⟨'"', (escapeChars s.data).reverse ++ ['"'], by simp, by decide⟩
  | jarr xs =>
      exact ⟨']', (dumpsL xs).reverse ++ ['['],
        by simp [dumpsV], by decide⟩
  | jobj kvs =>
      exact ⟨'}', (dumpsM kvs).reverse ++ ['{'],
        by simp [dumpsV], by decide⟩

theorem pyStrip_dumps (v : J) (hwf : wfV v = true) :
    pyStrip (String.mk (dumpsV v)) = String.mk (dumpsV v) := by
  unfold pyStrip
  rcases dumpsV_last v hwf with ⟨c, cs, hrev, hws⟩
  rw [show (String.mk (dumpsV v)).data = dumpsV v from rfl, hrev,
    skipWs_cons_not_ws _ _ hws, ← hrev, List.reverse_reverse]
  rcases dumpsV_start v with ⟨c2, cs2, heq, hws2, _, _⟩
  rw [heq, skipWs_cons_not_ws _ _ hws2, ← heq]

theorem loadLines_append (ls1 ls2 : List String) :
    loadLines (ls1 ++ ls2) = loadLines ls1 ++ loadLines ls2 := by
  unfold loadLines
  exact List.filterMap_append _ _ _

theorem loadLines_dumps_single (r : J) (h : wfV r = true) :
    loadLines [String.mk (dumpsV r)] = [r] := by
  unfold loadLines
  rw [List.filterMap_cons]
  simp only [pyStrip_dumps r h]
  rcases dumpsV_start r with ⟨c, cs, heq, _, _, _⟩
  have hni : (String.mk (dumpsV r)).data.isEmpty = false := by
    rw [show (String.mk (dumpsV r)).data = dumpsV r from rfl, heq]
    rfl
  simp [hni, json_loads_dumps r h]

mutual

theorem serializable_safe_map : ∀ p : PyVal, serializablePy (_safe_map p) = true
  | .pdict kvs => by
      simp only [_safe_map, serializablePy]
      exact serializableM_safe kvs
  | .plist xs => by
      simp only [_safe_map, serializablePy]
      exact serializableL_safe xs
  | .pjson v => rfl
  | .pbad s => rfl

theorem serializableL_safe : ∀ xs : List PyVal, serializableL (safeMapL xs) = true
  | [] => rfl
  | x :: t => by
      simp only [safeMapL, serializableL, Bool.and_eq_true]
      exact ⟨serializable_safe_map x, serializableL_safe t⟩

theorem serializableM_safe : ∀ kvs : List (String × PyVal), serializableM (safeMapM kvs) = true
  | [] => rfl
  | (k, v) :: t => by
      simp only [safeMapM, serializableM, Bool.and_eq_true]
      exact ⟨serializable_safe_map v, serializableM_safe t⟩

end

theorem json_dumps_py_safe (p : PyVal) :
    json_dumps_py (_safe_map p) = some (dumpsV (jOf (_safe_map p))) := by
  unfold json_dumps_py
  rw [if_pos (serializable_safe_map p)]

theorem autoExportStep_file (st1 : LogState) : (autoExportStep st1).1.file = st1.file := by
  unfold autoExportStep export_to_csv
  rcases st1.autoN with _ | n
  · rfl
  · simp only []
    split
    · split
      · split
        · rfl
        · rfl
      · rfl
    · rfl

theorem append_run_ok (st : LogState) (ts : String)
    (params metrics history model_paths : PyVal) (syncErr : Bool) :
    (append_run st ts params metrics history model_paths false syncErr).err = none ∧
    (append_run st ts params metrics history model_paths false syncErr).st.file =
      some (st.file.getD [] ++
        [String.mk (dumpsV (encodeRun ts params metrics history model_paths))]) := by
  unfold append_run
  simp only []
  rw [json_dumps_py_safe]
  simp only [if_neg (by simp : ¬ false = true)]
  cases syncErr with
  | false =>
      constructor
      · rfl
      · show (autoExportStep _).1.file = _
        rw [autoExportStep_file]
        rfl
  | true =>
      constructor
      · rfl
      · show (autoExportStep _).1.file = _
        rw [autoExportStep_file]
        rfl

theorem load_history_append_run (st : LogState) (ts : String)
    (params metrics history model_paths : PyVal) (syncErr : Bool)
    (hwf : wfV (encodeRun ts params metrics history model_paths) = true) :
    load_history (append_run st ts params metrics history model_paths false syncErr).st =
      load_history st ++ [encodeRun ts params metrics history model_paths] := by
  have hfile := (append_run_ok st ts params metrics history model_paths syncErr).2
  unfold load_history
  rw [hfile]
  rcases hst : st.file with _ | lines
  · simp only [hst, Option.getD_none, List.nil_append]
    exact loadLines_dumps_single _ hwf
  · simp only [hst, Option.getD_some]
    rw [loadLines_append, loadLines_dumps_single _ hwf]

theorem load_appendAll (st : LogState) (runs : List RunArgs)
    (h : ∀ a ∈ runs, wfV (encodeArgs a) = true) :
    load_history (appendAll st runs) = load_history st ++ runs.map encodeArgs := by
  induction runs generalizing st with
  | nil => simp [appendAll]
  | cons a t ih =>
      have hstep := load_history_append_run st a.ts a.params a.metrics a.history
        a.model_paths false (h a (by simp))
      have hrest := ih ((append_run st a.ts a.params a.metrics a.history a.model_paths
        false false).st) (fun b hb => h b (by simp [hb]))
      have hfold : appendAll st (a :: t) = appendAll ((append_run st a.ts a.params
        a.metrics a.history a.model_paths false false).st) t := rfl
      rw [hfold, hrest, hstep]
      simp [encodeArgs]

theorem load_history_of_file_eq (s1 s2 : LogState) (h : s1.file = s2.file) :
    load_history s1 = load_history s2 := by
  unfold load_history
  rw [h]

theorem loadLines_dumps_list : ∀ rs : List J, (∀ r ∈ rs, wfV r = true) →
    loadLines (rs.map (fun r => String.mk (dumpsV r))) = rs
  | [], _ => rfl
  | r :: t, h => by
      rw [List.map_cons,
        show (String.mk (dumpsV r) :: t.map (fun r => String.mk (dumpsV r)))
          = [String.mk (dumpsV r)] ++ t.map (fun r => String.mk (dumpsV r)) by simp,
        loadLines_append, loadLines_dumps_single r (h r (by simp)),
        loadLines_dumps_list t (fun x hx => h x (by simp [hx]))]
      rfl

/-!
Claim theorems.
-/

/-- C1: for every sequence of records appended via append_run into an
initially missing log (no failure injection, no concurrent writers),
load_history returns exactly the encoded records in append order; a line
that fails to parse, inserted anywhere among other lines, is skipped
without aborting the scan; and a file of well-formed record lines loads to
exactly those records in order. -/
theorem claim_C1 :
    (∀ runs : List RunArgs, (∀ a ∈ runs, wfV (encodeArgs a) = true) →
      load_history (appendAll initState runs) = runs.map encodeArgs)
    ∧ (∀ (g1 g2 : List String) (bad : String), json_loads (pyStrip bad) = none →
      loadLines (g1 ++ bad :: g2) = loadLines (g1 ++ g2))
    ∧ (∀ rs : List J, (∀ r ∈ rs, wfV r = true) →
      loadLines (rs.map (fun r => String.mk (dumpsV r))) = rs) := by
  refine ⟨?_, ?_, ?_⟩
  · intro runs h
    rw [load_appendAll initState runs h]
    simp [load_history, initState]
  · intro g1 g2 bad hbad
    have hsingle : loadLines [bad] = [] := by
      unfold loadLines
      by_cases he : (pyStrip bad).data = []
      · simp [List.filterMap_cons, List.isEmpty_iff, he]
      · simp [List.filterMap_cons, List.isEmpty_iff, he, hbad]
    rw [show (g1 ++ bad :: g2 : List String) = (g1 ++ [bad]) ++ g2 by simp,
      loadLines_append, loadLines_append, hsingle, List.append_nil, ← loadLines_append]
  · exact loadLines_dumps_list

/-- C1 witness: one concrete append reloads to its encoded record; the
malformed line "not json" among two well-formed lines is skipped; two
rendered records load back to themselves. -/
theorem claim_C1_witness :
    load_history (appendAll initState
      [⟨"2026-01-01T00:00:00Z", .pdict [("lr", .pjson (.jint 1))],
        .pdict [("mae", .pjson (.jint 2))], .pjson .jnull, .pjson .jnull⟩])
      = [.jobj [("timestamp", .jstr "2026-01-01T00:00:00Z"),
          ("params", .jobj [("lr", .jint 1)]),
          ("metrics", .jobj [("mae", .jint 2)]),
          ("history", .jnull), ("model_paths", .jnull)]]
    ∧ loadLines ["\x7b\"a\": 1\x7d", "not json", "2"] = loadLines ["\x7b\"a\": 1\x7d", "2"]
    ∧ loadLines ([J.jint 7, J.jstr "x"].map (fun r => String.mk (dumpsV r)))
      = [J.jint 7, J.jstr "x"] := by
  refine ⟨?_, ?_, ?_⟩
  · exact claim_C1.1 _ (by decide)
  · exact claim_C1.2.1 ["\x7b\"a\": 1\x7d"] ["2"] "not json" (by rfl)
  · exact claim_C1.2.2 [J.jint 7, J.jstr "x"] (by decide)

set_option maxRecDepth 20000 in
/-- C2: the record codec never fails: json.dumps succeeds on the output of
_safe_map for every input value (so an append whose params contain a
non-serializable value does not raise in the encode step), and concretely a
record with a non-serializable params leaf is appended and reloads with the
display-string fallback in place of that value. -/
theorem claim_C2 :
    (∀ p : PyVal, (json_dumps_py (_safe_map p)).isSome = true)
    ∧ load_history (append_run initState "2026-02-03T04:05:06Z"
        (.pdict [("optimizer", .pbad "<Adam object at 0x7f01>")])
        (.pdict [("mae", .pjson (.jint 3))]) (.pjson .jnull) (.pjson .jnull)
        false false).st
      = [.jobj [("timestamp", .jstr "2026-02-03T04:05:06Z"),
          ("params", .jobj [("optimizer", .jstr "<Adam object at 0x7f01>")]),
          ("metrics", .jobj [("mae", .jint 3)]),
          ("history", .jnull), ("model_paths", .jnull)]] := by
  constructor
  · intro p
    rw [json_dumps_py_safe]
    rfl
  · rfl

/-- C6: encode-then-decode is the identity: decoding the serialized line of
any representable record yields the record back, both at the wire level and
through the append_run / load_history pipeline. -/
theorem claim_C6 :
    (∀ v : J, wfV v = true → json_loads (String.mk (dumpsV v)) = some v)
    ∧ (∀ (st : LogState) (ts : String) (p m h mp : PyVal),
        wfV (encodeRun ts p m h mp) = true →
        load_history (append_run st ts p m h mp false false).st
          = load_history st ++ [encodeRun ts p m h mp]) :=
  ⟨json_loads_dumps,
   fun st ts p m h mp hw => load_history_append_run st ts p m h mp false hw⟩

set_option maxRecDepth 20000 in
/-- C6 witness: the identity at a concrete nested record of plain scalars,
and the pipeline at a concrete append. -/
theorem claim_C6_witness :
    json_loads (String.mk (dumpsV (.jobj [("a", .jarr [.jint 1, .jnum false 2 [5], .jstr "x"]),
      ("b", .jobj [("c", .jnull), ("d", .jbool true)])])))
      = some (.jobj [("a", .jarr [.jint 1, .jnum false 2 [5], .jstr "x"]),
        ("b", .jobj [("c", .jnull), ("d", .jbool true)])])
    ∧ load_history (append_run initState "t1" (.pdict [("lr", .pjson (.jnum false 0 [1]))])
        (.pdict []) (.pjson .jnull) (.pjson .jnull) false false).st
      = load_history initState ++ [encodeRun "t1" (.pdict [("lr", .pjson (.jnum false 0 [1]))])
          (.pdict []) (.pjson .jnull) (.pjson .jnull)] := by
  constructor
  · exact claim_C6.1 _ (by decide)
  · exact claim_C6.2 initState "t1" _ _ _ _ (by decide)

/-- C8: enabling auto-export with a non-positive interval fails immediately
with the invalid-argument error and leaves the whole state, in particular
the auto-export interval and the CSV target path, unchanged. -/
theorem claim_C8 (st : LogState) (p : Option String) :
    enable_auto_export_csv st (some 0) p
        = (st, some "ValueError: n must be a positive integer")
    ∧ enable_auto_export_csv st (some (-1)) p
        = (st, some "ValueError: n must be a positive integer")
    ∧ (enable_auto_export_csv st (some 0) p).1.autoN = st.autoN
    ∧ (enable_auto_export_csv st (some 0) p).1.csvPath = st.csvPath
    ∧ (enable_auto_export_csv st (some (-1)) p).1.autoN = st.autoN
    ∧ (enable_auto_export_csv st (some (-1)) p).1.csvPath = st.csvPath := by
  refine ⟨rfl, rfl, rfl, rfl, rfl, rfl⟩

/-- C9: a failing flush/fsync (injected via the sync flag) is swallowed:
the append returns no error, behaves exactly as with a healthy sync, and
the record's line is still appended; an injected failure of the write path
itself propagates to the caller as an error, with no line appended (the
file is still created by opening in append mode). -/
theorem claim_C9 (st : LogState) (ts : String) (p m h mp : PyVal) :
    append_run st ts p m h mp false true = append_run st ts p m h mp false false
    ∧ fsyncOutcome true = Except.error "OSError: fsync failed"
    ∧ (append_run st ts p m h mp false true).err = none
    ∧ (append_run st ts p m h mp false true).st.file
        = some (st.file.getD [] ++ [String.mk (dumpsV (encodeRun ts p m h mp))])
    ∧ (append_run st ts p m h mp true false).err = some "OSError: write failed"
    ∧ (append_run st ts p m h mp true false).st.file = some (st.file.getD []) := by
  refine ⟨rfl, rfl, (append_run_ok st ts p m h mp true).1,
    (append_run_ok st ts p m h mp true).2, ?_, ?_⟩
  · unfold append_run
    simp only []
    rw [json_dumps_py_safe]
    rfl
  · unfold append_run
    simp only []
    rw [json_dumps_py_safe]
    rfl

/-- C10: get_last_run returns the last element of load_history, hence none
exactly when load_history is empty (including a missing log file). -/
theorem claim_C10 (st : LogState) :
    get_last_run st = (load_history st).getLast?
    ∧ (get_last_run st = none ↔ load_history st = []) := by
  have heq : get_last_run st = (load_history st).getLast? := by
    unfold get_last_run
    by_cases he : (load_history st).isEmpty = true
    · rw [if_pos he]
      rw [List.isEmpty_iff] at he
      rw [he]
      rfl
    · rw [if_neg he]
  refine ⟨heq, ?_⟩
  rw [heq]
  cases hl : load_history st with
  | nil => simp
  | cons a t => simp [List.getLast?_eq_getLast]

theorem append_run_clean (st : LogState) (ts : String) (p m h mp : PyVal) :
    append_run st ts p m h mp false false
      = { st := (autoExportStep { st with file := some (st.file.getD []
            ++ [String.mk (dumpsV (encodeRun ts p m h mp))]) }).1,
          err := none,
          exported := (autoExportStep { st with file := some (st.file.getD []
            ++ [String.mk (dumpsV (encodeRun ts p m h mp))]) }).2 } := by
  unfold append_run
  simp only []
  rw [json_dumps_py_safe]
  rfl

theorem export_to_csv_file (s : LogState) : (export_to_csv s).1.file = s.file := by
  unfold export_to_csv
  simp only []
  split
  · rfl
  · rfl

set_option maxRecDepth 100000 in
/-- C3: with auto-export enabled at interval 3, six appends into an
initially empty log export exactly after the 3rd and 6th appends, with 3
and 6 record rows written to the CSV target; and in general a no-failure
append performs a CSV export exactly when an interval n > 0 is configured
and the recomputed record count is a positive exact multiple of n (when
the count is zero the source calls the exporter but it declines to write
anything). -/
theorem claim_C3 :
    ((fun st0 =>
      (fun step =>
        (fun r1 => (fun r2 => (fun r3 => (fun r4 => (fun r5 => (fun r6 =>
          (r1.exported, r2.exported, r3.exported, r4.exported, r5.exported, r6.exported)
            = (none, none, some 3, none, none, some 6)
          ∧ r3.st.csv.map List.length = some 3
          ∧ r6.st.csv.map List.length = some 6)
          (step r5.st)) (step r4.st)) (step r3.st)) (step r2.st)) (step r1.st)) (step st0))
        (fun s : LogState => append_run s "2026-01-01T00:00:00Z"
          (.pdict [("lr", .pjson (.jnum false 0 [0, 1]))])
          (.pdict [("mae", .pjson (.jint 1))]) (.pjson .jnull) (.pjson .jnull) false false))
      ((enable_auto_export_csv initState (some 3) none).1) : Prop)
    ∧ (∀ (st : LogState) (ts : String) (p m h mp : PyVal),
      (append_run st ts p m h mp false false).exported ≠ none ↔
        (∃ n, st.autoN = some n ∧ 0 < n ∧
          load_history (append_run st ts p m h mp false false).st ≠ [] ∧
          ((load_history (append_run st ts p m h mp false false).st).length : Int) % n = 0)) := by
  constructor
  · exact ⟨rfl, rfl, rfl⟩
  · intro st ts p m h mp
    rw [append_run_clean st ts p m h mp]
    simp only []
    have hload : load_history (autoExportStep { st with file := some (st.file.getD []
        ++ [String.mk (dumpsV (encodeRun ts p m h mp))]) }).1
        = load_history { st with file := some (st.file.getD []
        ++ [String.mk (dumpsV (encodeRun ts p m h mp))]) } :=
      load_history_of_file_eq _ _ (autoExportStep_file _)
    rw [hload]
    unfold autoExportStep
    simp only []
    rcases hN : st.autoN with _ | n
    · simp
    · simp only []
      split
      · next h0 =>
          split
          · next hm =>
              unfold export_to_csv
              simp only []
              split
              · next hre =>
                  rw [List.isEmpty_iff] at hre
                  simp [hre]
              · next hre =>
                  rw [List.isEmpty_iff] at hre
                  constructor
                  · intro _
                    exact ⟨n, rfl, h0, hre, by simpa using hm⟩
                  · intro _
                    simp
          · next hm =>
              simp only [ne_eq, not_true_eq_false, false_iff]
              rintro ⟨n', hn', _, _, hmod⟩
              rw [Option.some.injEq] at hn'
              subst hn'
              exact hm (by simpa using hmod)
      · next h0 =>
          simp only [ne_eq, not_true_eq_false, false_iff]
          rintro ⟨n', hn', h0', _, _⟩
          rw [Option.some.injEq] at hn'
          subst hn'
          exact absurd h0' h0

set_option maxRecDepth 100000 in
/-- C4: on a log with one valid line, one line salvageable from its first
brace and one wholly malformed line, repair_history recovers exactly 2
records, rewrites the log to their canonical serializations, returns 2,
and with backup enabled preserves the original three lines at the backup
path; a line whose first-brace suffix does not parse is still salvaged
from a later brace position (both the direct parse and the first-brace
parse of the demo line fail), and a line with no salvageable suffix is
skipped. -/
theorem claim_C4 :
    (repair_history { initState with
        file := some ["\x7b\"a\": 1\x7d", "noise \x7b\"b\": 2\x7d", "garbage"] } true).2 = 2
    ∧ (repair_history { initState with
        file := some ["\x7b\"a\": 1\x7d", "noise \x7b\"b\": 2\x7d", "garbage"] } true).1.file
      = some ["\x7b\"a\": 1\x7d", "\x7b\"b\": 2\x7d"]
    ∧ (repair_history { initState with
        file := some ["\x7b\"a\": 1\x7d", "noise \x7b\"b\": 2\x7d", "garbage"] } true).1.bak
      = some ["\x7b\"a\": 1\x7d", "noise \x7b\"b\": 2\x7d", "garbage"]
    ∧ repairLine (pyStrip "x\x7bbad \x7b\"c\": 3\x7d").data = some (.jobj [("c", .jint 3)])
    ∧ jsonLoadsChars (pyStrip "x\x7bbad \x7b\"c\": 3\x7d").data = none
    ∧ jsonLoadsChars "\x7bbad \x7b\"c\": 3\x7d".data = none
    ∧ braceTails (pyStrip "x\x7bbad \x7b\"c\": 3\x7d").data
        = ["\x7bbad \x7b\"c\": 3\x7d".data, "\x7b\"c\": 3\x7d".data]
    ∧ repairLine (pyStrip "garbage").data = none := by
  refine ⟨rfl, by decide, by decide, rfl, rfl, rfl, by decide, rfl⟩

set_option maxRecDepth 100000 in
/-- C5: on the same three-line log, audit_history_file reports 3 total
lines, 2 valid and 1 malformed: the direct parse of the noisy line fails
but its first-brace salvage parses, so it is counted valid rather than
malformed; the wholly malformed line has no brace to salvage from. -/
theorem claim_C5 :
    audit_history_file { initState with
        file := some ["\x7b\"a\": 1\x7d", "noise \x7b\"b\": 2\x7d", "garbage"] }
      = ⟨3, 2, 1⟩
    ∧ json_loads (pyStrip "noise \x7b\"b\": 2\x7d") = none
    ∧ braceSuffix (pyStrip "noise \x7b\"b\": 2\x7d").data = some ("\x7b\"b\": 2\x7d".data)
    ∧ jsonLoadsChars ("\x7b\"b\": 2\x7d".data) = some (.jobj [("b", .jint 2)])
    ∧ braceSuffix (pyStrip "garbage").data = none := by
  refine ⟨by decide, rfl, by decide, rfl, by decide⟩

set_option maxRecDepth 100000 in
/-- C7 counterexample: the claim that a value of a different type than the
query value never matches fails on the code: Python's == compares numbers
across bool/int/float by value, so the record whose params lr is the
integer 1 is returned for the float query value 1.0. -/
theorem claim_C7_counterexample :
    find_runs_by_param
      { initState with file := some [String.mk (dumpsV (.jobj
          [("timestamp", .jstr "t"), ("params", .jobj [("lr", .jint 1)])]))] }
      "lr" (.jnum false 1 [0])
      = [.jobj [("timestamp", .jstr "t"), ("params", .jobj [("lr", .jint 1)])]] := by
  rfl

set_option maxRecDepth 100000 in
/-- C7 (amended): find_runs_by_param returns, in original log order,
exactly the records whose params entry for the name compares equal to the
query value under Python ==; equality is exact on floats, so 0.010000001
is excluded for the query 0.01, and non-numeric values of a different type
never match, but numeric values compare by value across bool, int and
float. -/
theorem claim_C7 :
    (∀ (st : LogState) (name : String) (v : J),
      find_runs_by_param st name v
        = (load_history st).filter (fun r => pyEq (paramLookup r name) v))
    ∧ (∀ (st : LogState) (name : String) (v : J),
      (find_runs_by_param st name v).Sublist (load_history st))
    ∧ find_runs_by_param
        { initState with file := some [String.mk (dumpsV (.jobj
            [("timestamp", .jstr "t1"), ("params", .jobj [("lr", .jnum false 0 [0, 1])])])),
            String.mk (dumpsV (.jobj
            [("timestamp", .jstr "t2"),
             ("params", .jobj [("lr", .jnum false 0 [0, 1, 0, 0, 0, 0, 0, 0, 1])])]))] }
        "lr" (.jnum false 0 [0, 1])
      = [.jobj [("timestamp", .jstr "t1"), ("params", .jobj [("lr", .jnum false 0 [0, 1])])]]
    ∧ pyEq (.jnum false 0 [0, 1]) (.jnum false 0 [0, 1, 0, 0, 0, 0, 0, 0, 1]) = false
    ∧ pyEq (.jint 1) (.jnum false 1 [0]) = true
    ∧ pyEq (.jbool true) (.jint 1) = true
    ∧ pyEq (.jstr "1") (.jint 1) = false
    ∧ pyEq .jnull (.jbool false) = false
    ∧ pyEq (.jarr []) (.jobj []) = false := by
  refine ⟨fun st name v => rfl, fun st name v => List.filter_sublist _,
    by rfl, by decide, by decide, by decide, by decide, by decide, by decide⟩

theorem escapeChars_no_newline (l : List Char) : '\n' ∉ escapeChars l := by
  induction l with
  | nil => simp [escapeChars]
  | cons c t iht =>
      simp only [escapeChars]
      split_ifs with h1 h2 h3 h4 h5
      · simp only [List.mem_cons, not_or]
        exact ⟨by decide, by decide, iht⟩
      · simp only [List.mem_cons, not_or]
        exact ⟨by decide, by decide, iht⟩
      · simp only [List.mem_cons, not_or]
        exact ⟨by decide, by decide, iht⟩
      · simp only [List.mem_cons, not_or]
        exact ⟨by decide, by decide, iht⟩
      · simp only [List.mem_cons, not_or]
        exact ⟨by decide, by decide, iht⟩
      · simp only [List.mem_cons, not_or]
        exact ⟨fun e => h3 e.symm, iht⟩

theorem natDigits_no_newline (n : Nat) : '\n' ∉ natDigits n := by
  intro hm
  have := natDigits_all_digit n '\n' hm
  exact absurd this (by decide)

mutual

theorem dumpsV_no_newline : ∀ v : J, wfV v = true → '\n' ∉ dumpsV v
  | .jnull, _ => by decide
  | .jbool b, _ => by cases b <;> decide
  | .jint n, _ => by
      show '\n' ∉ dumpsInt n
      unfold dumpsInt
      split
      · simp [natDigits_no_newline n.natAbs]
      · exact natDigits_no_newline _
  | .jnum neg ip frac, hwf => by
      show '\n' ∉ dumpsNum neg ip frac
      simp only [wfV, Bool.and_eq_true, Bool.not_eq_true', List.all_eq_true,
        decide_eq_true_eq] at hwf
      unfold dumpsNum
      have hfr : '\n' ∉ frac.map digitChar := by
        intro hm
        rcases List.mem_map.mp hm with ⟨d, hdm, he⟩
        have : ('\n').isDigit = true := by
          rw [← he]
          exact isDigit_digitChar d (hwf.2 d hdm)
        exact absurd this (by decide)
      cases neg <;> simp [natDigits_no_newline ip, hfr]
  | .jstr s, _ => by
      show '\n' ∉ dumpsStr s
      unfold dumpsStr
      simp [escapeChars_no_newline s.data]
  | .jarr xs, hwf => by
      simp [dumpsV, dumpsL_no_newline xs (by simpa [wfV] using hwf)]
  | .jobj kvs, hwf => by
      simp [dumpsV, dumpsM_no_newline kvs (by simpa [wfV] using hwf)]

theorem dumpsL_no_newline : ∀ xs : List J, wfL xs = true → '\n' ∉ dumpsL xs
  | [], _ => by decide
  | [x], hwf => dumpsV_no_newline x (by
      rw [wfL] at hwf
      simp only [Bool.and_eq_true] at hwf
      exact hwf.1)
  | x :: y :: t, hwf => by
      have h2 : wfV x = true ∧ wfL (y :: t) = true := by
        rw [wfL] at hwf
        simp only [Bool.and_eq_true] at hwf
        exact hwf
      simp [dumpsL, dumpsV_no_newline x h2.1, dumpsL_no_newline (y :: t) h2.2]

theorem dumpsM_no_newline : ∀ kvs : List (String × J), wfM kvs = true → '\n' ∉ dumpsM kvs
  | [], _ => by decide
  | [(k, v)], hwf => by
      have h2 : wfV v = true := by
        rw [wfM] at hwf
        simp only [Bool.and_eq_true] at hwf
        exact hwf.1.2
      simp [dumpsM, dumpsStr, escapeChars_no_newline k.data, dumpsV_no_newline v h2]
  | (k, v) :: m :: t, hwf => by
      have h2 : wfV v = true ∧ wfM (m :: t) = true := by
        rw [wfM] at hwf
        simp only [Bool.and_eq_true] at hwf
        exact ⟨hwf.1.2, hwf.2⟩
      simp [dumpsM, dumpsStr, escapeChars_no_newline k.data, dumpsV_no_newline v h2.1,
        dumpsM_no_newline (m :: t) h2.2]

end
